import Mathlib

/-!
Verification of the image-filter routines of this repository
(`src/main.cpp`) against their natural-language specification.

Images are shallowly embedded: a pixel is a triple of exact rational
channel values standing for the C++ `glm::vec3` of floats, and an image
is its dimensions together with a total pixel function on integer
coordinates.  In-place pixel writes are embedded as left folds over the
loop's coordinate list, so write order and aliasing are preserved.
-/

namespace ImgProc

/-- A pixel: red, green, blue channels, embedding `glm::vec3`
with exact rationals in place of IEEE floats. -/
def Vec3 : Type := ℚ × ℚ × ℚ

instance : AddCommGroup Vec3 := inferInstanceAs (AddCommGroup (ℚ × ℚ × ℚ))
instance : DecidableEq Vec3 := inferInstanceAs (DecidableEq (ℚ × ℚ × ℚ))
instance : Inhabited Vec3 := inferInstanceAs (Inhabited (ℚ × ℚ × ℚ))

/-- Build a pixel from its three channels (`glm::vec3{r, g, b}`). -/
def Vec3.mk (r g b : ℚ) : Vec3 := (r, g, b)

/-- Red channel. -/
def Vec3.r (v : Vec3) : ℚ := v.1
/-- Green channel. -/
def Vec3.g (v : Vec3) : ℚ := v.2.1
/-- Blue channel. -/
def Vec3.b (v : Vec3) : ℚ := v.2.2

/-- Componentwise division by a scalar (`vec / float(n)` in glm). -/
def Vec3.divs (v : Vec3) (q : ℚ) : Vec3 := Vec3.mk (v.r / q) (v.g / q) (v.b / q)

/-- Componentwise multiplication by a scalar (`vec * w` in glm). -/
def Vec3.scale (v : Vec3) (q : ℚ) : Vec3 := Vec3.mk (v.r * q) (v.g * q) (v.b * q)

theorem Vec3.ext_ch {v w : Vec3} (hr : v.r = w.r) (hg : v.g = w.g) (hb : v.b = w.b) :
    v = w := by
  obtain ⟨a, b, c⟩ := v; obtain ⟨d, e, f⟩ := w
  simp only [Vec3.r, Vec3.g, Vec3.b] at hr hg hb
  simp [hr, hg, hb]

@[simp] theorem Vec3.r_add (v w : Vec3) : (v + w).r = v.r + w.r := rfl
@[simp] theorem Vec3.g_add (v w : Vec3) : (v + w).g = v.g + w.g := rfl
@[simp] theorem Vec3.b_add (v w : Vec3) : (v + w).b = v.b + w.b := rfl
@[simp] theorem Vec3.r_sub (v w : Vec3) : (v - w).r = v.r - w.r := rfl
@[simp] theorem Vec3.g_sub (v w : Vec3) : (v - w).g = v.g - w.g := rfl
@[simp] theorem Vec3.b_sub (v w : Vec3) : (v - w).b = v.b - w.b := rfl
@[simp] theorem Vec3.r_zero : (0 : Vec3).r = 0 := rfl
@[simp] theorem Vec3.g_zero : (0 : Vec3).g = 0 := rfl
@[simp] theorem Vec3.b_zero : (0 : Vec3).b = 0 := rfl
@[simp] theorem Vec3.r_mk (r g b : ℚ) : (Vec3.mk r g b).r = r := rfl
@[simp] theorem Vec3.g_mk (r g b : ℚ) : (Vec3.mk r g b).g = g := rfl
@[simp] theorem Vec3.b_mk (r g b : ℚ) : (Vec3.mk r g b).b = b := rfl

/-- `std::clamp(v, lo, hi)` on integers. -/
def clampZ (v lo hi : ℤ) : ℤ := max lo (min v hi)

/-- `std::clamp` on rational channel values. -/
def clampQ (v lo hi : ℚ) : ℚ := max lo (min v hi)

/-- An image: dimensions plus a total pixel function, embedding
`sil::Image`.  Only coordinates in `[0, width) × [0, height)` are
meaningful; filters never read outside them (all accesses clamp). -/
structure Image where
  width : ℕ
  height : ℕ
  pix : ℤ → ℤ → Vec3

/-- A freshly constructed `sil::Image{w, h}`: all pixels black. -/
def Image.black (w h : ℕ) : Image := ⟨w, h, fun _ _ => 0⟩

/-! ## Separable box blur (`blur_convolution`, main.cpp:563-617)

The horizontal pass keeps a running sum per row: the sum is initialised
over the clamped window of column `0`, and each step to column `x`
removes the sample leaving the window and adds the sample entering it.
`hsumRun img size y x` is the value of the C++ variable `sum` for row
`y` after processing column `x`.  The vertical pass does the same per
column over the intermediate image. -/

/-- Running horizontal window sum of row `y` at column `x`
(the `sum` variable of the first loop of `blur_convolution`). -/
def hsumRun (img : Image) (size : ℤ) (y : ℤ) : ℕ → Vec3
  | 0 =>
      ∑ i ∈ Finset.range size.toNat,
        img.pix (clampZ (-(size / 2) + i) 0 ((img.width : ℤ) - 1)) y
  | x + 1 =>
      hsumRun img size y x
        - img.pix (clampZ (((x : ℤ) + 1) - size / 2 - 1) 0 ((img.width : ℤ) - 1)) y
        + img.pix (clampZ (((x : ℤ) + 1) - size / 2 + size - 1) 0 ((img.width : ℤ) - 1)) y

/-- The intermediate image `temp` written by the horizontal pass. -/
def hpass (img : Image) (size : ℤ) : Image :=
  ⟨img.width, img.height, fun x y => (hsumRun img size y x.toNat).divs (size : ℚ)⟩

/-- Running vertical window sum of column `x` at row `y`
(the `sum` variable of the second loop of `blur_convolution`). -/
def vsumRun (timg : Image) (size : ℤ) (x : ℤ) : ℕ → Vec3
  | 0 =>
      ∑ j ∈ Finset.range size.toNat,
        timg.pix x (clampZ (-(size / 2) + j) 0 ((timg.height : ℤ) - 1))
  | y + 1 =>
      vsumRun timg size x y
        - timg.pix x (clampZ (((y : ℤ) + 1) - size / 2 - 1) 0 ((timg.height : ℤ) - 1))
        + timg.pix x (clampZ (((y : ℤ) + 1) - size / 2 + size - 1) 0 ((timg.height : ℤ) - 1))

/-- `blur_convolution(img, size)`: early return when `size <= 1`,
otherwise horizontal pass into `temp`, then vertical pass into `out`,
each sample divided by `float(size)`. -/
def blur_convolution (img : Image) (size : ℤ) : Image :=
  if size ≤ 1 then img
  else ⟨img.width, img.height,
    fun x y => (vsumRun (hpass img size) size x y.toNat).divs (size : ℚ)⟩

/-- The naive reference box blur, written from the spec's words: every
pixel is the arithmetic mean of the `k×k` window centred on it (for even
`k` the window is `[c - k/2, c + k - k/2 - 1]` on each axis), where
window coordinates outside `[0, dimension)` are clamped to the nearest
valid coordinate (edge replication). -/
def boxBlurRef (img : Image) (size : ℤ) : Image :=
  ⟨img.width, img.height, fun x y =>
    (∑ j ∈ Finset.range size.toNat, ∑ i ∈ Finset.range size.toNat,
        img.pix (clampZ (x - size / 2 + i) 0 ((img.width : ℤ) - 1))
                (clampZ (y - size / 2 + j) 0 ((img.height : ℤ) - 1))).divs
      ((size * size : ℤ) : ℚ)⟩

@[simp] theorem Vec3.divs_add (v w : Vec3) (q : ℚ) :
    (v + w).divs q = v.divs q + w.divs q := by
  apply Vec3.ext_ch <;> simp [Vec3.divs, add_div]

@[simp] theorem Vec3.divs_zero (q : ℚ) : (0 : Vec3).divs q = 0 := by
  apply Vec3.ext_ch <;> simp [Vec3.divs]

theorem Vec3.divs_divs (v : Vec3) (a b : ℚ) :
    (v.divs a).divs b = v.divs (a * b) := by
  apply Vec3.ext_ch <;> simp [Vec3.divs, div_div]

theorem Vec3.r_sum {α : Type} (s : Finset α) (f : α → Vec3) :
    (∑ i ∈ s, f i).r = ∑ i ∈ s, (f i).r := by
  induction s using Finset.cons_induction with
  | empty => simp
  | cons a s ha ih => simp [Finset.sum_cons, ih]

theorem Vec3.g_sum {α : Type} (s : Finset α) (f : α → Vec3) :
    (∑ i ∈ s, f i).g = ∑ i ∈ s, (f i).g := by
  induction s using Finset.cons_induction with
  | empty => simp
  | cons a s ha ih => simp [Finset.sum_cons, ih]

theorem Vec3.b_sum {α : Type} (s : Finset α) (f : α → Vec3) :
    (∑ i ∈ s, f i).b = ∑ i ∈ s, (f i).b := by
  induction s using Finset.cons_induction with
  | empty => simp
  | cons a s ha ih => simp [Finset.sum_cons, ih]

theorem Vec3.sum_divs {α : Type} (s : Finset α) (f : α → Vec3) (q : ℚ) :
    ∑ i ∈ s, (f i).divs q = (∑ i ∈ s, f i).divs q := by
  induction s using Finset.cons_induction with
  | empty => simp
  | cons a s ha ih => simp [Finset.sum_cons, ih]

/-- Sliding one step to the right: the sum over the shifted window is the
old sum minus the sample that left plus the sample that entered. -/
theorem window_slide (f : ℤ → Vec3) (a : ℤ) (s : ℕ) :
    ∑ i ∈ Finset.range s, f (a + 1 + i)
      = (∑ i ∈ Finset.range s, f (a + i)) - f a + f (a + s) := by
  have h1 : ∑ i ∈ Finset.range (s + 1), f (a + i)
      = (∑ i ∈ Finset.range s, f (a + (i + 1))) + f (a + 0) :=
    Finset.sum_range_succ' (fun i => f (a + i)) s
  have h2 : ∑ i ∈ Finset.range (s + 1), f (a + i)
      = (∑ i ∈ Finset.range s, f (a + i)) + f (a + s) :=
    Finset.sum_range_succ (fun i => f (a + i)) s
  have h3 : ∑ i ∈ Finset.range s, f (a + (i + 1))
      = ∑ i ∈ Finset.range s, f (a + 1 + i) := by
    apply Finset.sum_congr rfl
    intro i _
    ring_nf
  rw [h3] at h1
  have h4 : (∑ i ∈ Finset.range s, f (a + 1 + i)) + f a
      = (∑ i ∈ Finset.range s, f (a + i)) + f (a + s) := by
    have ha : f a = f (a + 0) := by rw [add_zero]
    rw [ha, ← h1, h2]
  rw [sub_add_eq_add_sub, eq_sub_iff_add_eq]
  exact h4

/-- The running horizontal sum after column `x` equals the plain clamped
window sum of the window `[x - size/2, x - size/2 + size)`. -/
theorem hsumRun_eq (img : Image) (size : ℤ) (h2 : 2 ≤ size) (y : ℤ) (x : ℕ) :
    hsumRun img size y x
      = ∑ i ∈ Finset.range size.toNat,
          img.pix (clampZ ((x : ℤ) - size / 2 + i) 0 ((img.width : ℤ) - 1)) y := by
  have hts : ((size.toNat : ℤ)) = size := Int.toNat_of_nonneg (by omega)
  induction x with
  | zero => simp [hsumRun, zero_sub]
  | succ x ih =>
      have key := window_slide
        (fun j => img.pix (clampZ j 0 ((img.width : ℤ) - 1)) y)
        ((x : ℤ) - size / 2) size.toNat
      simp only at key
      rw [hsumRun, ih]
      push_cast
      rw [show (x : ℤ) + 1 - size / 2 - 1 = (x : ℤ) - size / 2 by ring,
        show (x : ℤ) + 1 - size / 2 + size - 1
            = (x : ℤ) - size / 2 + (size.toNat : ℤ) by rw [hts]; ring,
        show (x : ℤ) + 1 - size / 2 = (x : ℤ) - size / 2 + 1 by ring]
      exact key.symm

/-- The running vertical sum after row `y` equals the plain clamped
window sum of the window `[y - size/2, y - size/2 + size)`. -/
theorem vsumRun_eq (timg : Image) (size : ℤ) (h2 : 2 ≤ size) (x : ℤ) (y : ℕ) :
    vsumRun timg size x y
      = ∑ j ∈ Finset.range size.toNat,
          timg.pix x (clampZ ((y : ℤ) - size / 2 + j) 0 ((timg.height : ℤ) - 1)) := by
  have hts : ((size.toNat : ℤ)) = size := Int.toNat_of_nonneg (by omega)
  induction y with
  | zero => simp [vsumRun, zero_sub]
  | succ y ih =>
      have key := window_slide
        (fun j => timg.pix x (clampZ j 0 ((timg.height : ℤ) - 1)))
        ((y : ℤ) - size / 2) size.toNat
      simp only at key
      rw [vsumRun, ih]
      push_cast
      rw [show (y : ℤ) + 1 - size / 2 - 1 = (y : ℤ) - size / 2 by ring,
        show (y : ℤ) + 1 - size / 2 + size - 1
            = (y : ℤ) - size / 2 + (size.toNat : ℤ) by rw [hts]; ring,
        show (y : ℤ) + 1 - size / 2 = (y : ℤ) - size / 2 + 1 by ring]
      exact key.symm

/-- Closed form of the two-pass blur at a pixel: the mean of the clamped
`size × size` window. -/
theorem blur_pix_window (img : Image) (size : ℤ)
    (hs : 1 < size) (x y : ℤ) (hx : 0 ≤ x) (hy : 0 ≤ y) :
    (blur_convolution img size).pix x y
      = (∑ j ∈ Finset.range size.toNat, ∑ i ∈ Finset.range size.toNat,
          img.pix (clampZ (x - size / 2 + i) 0 ((img.width : ℤ) - 1))
                  (clampZ (y - size / 2 + j) 0 ((img.height : ℤ) - 1))).divs
        ((size : ℚ) * (size : ℚ)) := by
  have h2 : 2 ≤ size := by omega
  have hxx : ((x.toNat : ℤ)) = x := Int.toNat_of_nonneg hx
  have hyy : ((y.toNat : ℤ)) = y := Int.toNat_of_nonneg hy
  simp only [blur_convolution]
  rw [if_neg (by omega : ¬ size ≤ 1)]
  simp only [vsumRun_eq _ _ h2, hpass]
  simp only [hsumRun_eq _ _ h2, hxx, hyy]
  rw [Vec3.sum_divs, Vec3.divs_divs]

/-- C1: for every image and every kernel size `k > 1`, the separable box
blur (horizontal then vertical pass, each maintained by a sliding running
sum) produces, at every pixel, the same value as the naive reference in
which the pixel is the arithmetic mean of the `k×k` window centred on it,
with window coordinates outside `[0, dimension)` clamped to the nearest
valid coordinate (edge replication). -/
theorem blur_convolution_refines_boxBlurRef (img : Image) (size : ℤ)
    (hs : 1 < size) (x y : ℤ) (hx : 0 ≤ x) (hy : 0 ≤ y) :
    (blur_convolution img size).pix x y = (boxBlurRef img size).pix x y := by
  rw [blur_pix_window img size hs x y hx hy]
  simp only [boxBlurRef]
  push_cast
  ring_nf

/-- Witness for C1 at a concrete image, size and pixel. -/
theorem blur_convolution_refines_boxBlurRef_witness :
    (blur_convolution (Image.black 2 2) 2).pix 0 0
      = (boxBlurRef (Image.black 2 2) 2).pix 0 0 :=
  blur_convolution_refines_boxBlurRef (Image.black 2 2) 2 (by decide) 0 0
    (by decide) (by decide)

/-- C5: for every image and every kernel size `k ≤ 1` (in particular
`k = 1`), the box blur returns with every pixel unchanged. -/
theorem blur_convolution_noop_of_small (img : Image) (size : ℤ)
    (h : size ≤ 1) (x y : ℤ) :
    (blur_convolution img size).pix x y = img.pix x y := by
  unfold blur_convolution
  rw [if_pos h]

/-- Witness for C5 with kernel size `1` at a concrete image and pixel. -/
theorem blur_convolution_noop_of_small_witness :
    (blur_convolution (Image.black 3 3) 1).pix 1 1 = (Image.black 3 3).pix 1 1 :=
  blur_convolution_noop_of_small (Image.black 3 3) 1 (by decide) 1 1

/-! ## In-place pixel writes

A C++ loop `for (y ...) for (x ...) img.pixel(x, y) = v(x, y);` is
embedded as a left fold over the loop's coordinate list, writing through
`setPix`.  `writeAll_eq` recovers the final buffer when the written
value is a function of the coordinate alone (which holds whenever the
loop reads only from a frozen snapshot, the repository's
snapshot-then-write idiom). -/

/-- One in-place pixel store `img.pixel(c) = v`. -/
def setPix (p : ℤ → ℤ → Vec3) (c : ℤ × ℤ) (v : Vec3) : ℤ → ℤ → Vec3 :=
  fun a b => if a = c.1 ∧ b = c.2 then v else p a b

/-- The buffer after writing `v c` at every coordinate of `L`, in loop
order. -/
def writeAll (p : ℤ → ℤ → Vec3) (L : List (ℤ × ℤ)) (v : ℤ × ℤ → Vec3) :
    ℤ → ℤ → Vec3 :=
  L.foldl (fun q c => setPix q c (v c)) p

theorem writeAll_eq (p : ℤ → ℤ → Vec3) (L : List (ℤ × ℤ)) (v : ℤ × ℤ → Vec3)
    (a b : ℤ) :
    writeAll p L v a b = if (a, b) ∈ L then v (a, b) else p a b := by
  induction L generalizing p with
  | nil => simp [writeAll]
  | cons c L ih =>
      show writeAll (setPix p c (v c)) L v a b = _
      rw [ih]
      by_cases hL : (a, b) ∈ L
      · simp [hL]
      · by_cases hc : (a, b) = c
        · subst hc
          simp [setPix, hL]
        · have hne : ¬(a = c.1 ∧ b = c.2) := fun h => hc (Prod.ext h.1 h.2)
          simp [setPix, hL, hc, hne, List.mem_cons]

/-- The coordinate list of the nested loop
`for (y = s2; y < s2 + n2; ++y) for (x = s1; x < s1 + n1; ++x)`. -/
def loopCoords (s1 n1 s2 n2 : ℕ) : List (ℤ × ℤ) :=
  (List.range' s2 n2).flatMap fun (y : ℕ) =>
    (List.range' s1 n1).map fun (x : ℕ) => ((x : ℤ), (y : ℤ))

theorem mem_loopCoords (s1 n1 s2 n2 : ℕ) (x y : ℤ) :
    (x, y) ∈ loopCoords s1 n1 s2 n2
      ↔ ((s1 : ℤ) ≤ x ∧ x < (s1 : ℤ) + n1 ∧ (s2 : ℤ) ≤ y ∧ y < (s2 : ℤ) + n2) := by
  constructor
  · intro h
    simp only [loopCoords, List.mem_flatMap, List.mem_map, List.mem_range'_1,
      Prod.mk.injEq] at h
    obtain ⟨j, hj, i, hi, hx, hy⟩ := h
    omega
  · intro h
    simp only [loopCoords, List.mem_flatMap, List.mem_map, List.mem_range'_1,
      Prod.mk.injEq]
    exact ⟨y.toNat, by omega, x.toNat, by omega, by omega, by omega⟩

/-! ## Fixed-kernel 3×3 convolution (`convolution`, main.cpp:627-649) -/

/-- The kernel selector enum. -/
inductive Kernel
  | Identity
  | Blur
  | Sharpen
  | EdgeDetection
  | BoxBlur
deriving DecidableEq

/-- `getKernel`: the four fixed 3×3 weight matrices; the `BoxBlur` case
falls through the `switch` and returns the empty matrix. -/
def getKernel : Kernel → List (List ℚ)
  | .Identity => [[0, 0, 0], [0, 1, 0], [0, 0, 0]]
  | .Blur => [[0.0625, 0.125, 0.0625], [0.125, 0.25, 0.125], [0.0625, 0.125, 0.0625]]
  | .Sharpen => [[0, -1, 0], [-1, 5, -1], [0, -1, 0]]
  | .EdgeDetection => [[-1, -1, -1], [-1, 8, -1], [-1, -1, -1]]
  | .BoxBlur => []

/-- `k[row][col]` on the weight matrix. -/
def kernelAt (k : List (List ℚ)) (row col : ℕ) : ℚ := (k.getD row []).getD col 0

/-- The weighted sum accumulated for one pixel: neighbours are read from
the frozen snapshot `original` taken before the loop. -/
def convWeightedSum (original : Image) (k : List (List ℚ)) (x y : ℤ) : Vec3 :=
  ∑ ky ∈ Finset.range 3, ∑ kx ∈ Finset.range 3,
    (original.pix (x + kx - 1) (y + ky - 1)).scale (kernelAt k ky kx)

/-- `convolution(img, kernel)`: `BoxBlur` dispatches to
`blur_convolution` with its default size `100`; otherwise the loop walks
`y ∈ [1, h-1)`, `x ∈ [1, w-1)` writing the weighted sum into the live
buffer while reading the snapshot. -/
def convolution (img : Image) (kernel : Kernel) : Image :=
  if kernel = Kernel.BoxBlur then blur_convolution img 100
  else
    ⟨img.width, img.height,
      writeAll img.pix (loopCoords 1 (img.width - 2) 1 (img.height - 2))
        (fun c => convWeightedSum img (getKernel kernel) c.1 c.2)⟩

/-- Interior of the loop bounds, as integer inequalities.  For `w < 2`
the loop count `w - 2` truncates to `0` and no pixel is interior. -/
theorem mem_interior (w h : ℕ) (x y : ℤ) :
    (x, y) ∈ loopCoords 1 (w - 2) 1 (h - 2)
      ↔ (1 ≤ x ∧ x < (w : ℤ) - 1 ∧ 1 ≤ y ∧ y < (h : ℤ) - 1) := by
  rw [mem_loopCoords]
  omega

/-- C2: for every image and every fixed 3×3 kernel (identity, blur,
sharpen, edge-detect — everything except the `BoxBlur` dispatch), the
convolution sets each interior pixel (not on the 1-pixel border) to the
weighted sum of its 3×3 neighbourhood read from the original
pre-convolution image, and leaves every border pixel unchanged. -/
theorem convolution_spec (img : Image) (kernel : Kernel)
    (hk : kernel ≠ Kernel.BoxBlur) (x y : ℤ) :
    (convolution img kernel).pix x y
      = if 1 ≤ x ∧ x < (img.width : ℤ) - 1 ∧ 1 ≤ y ∧ y < (img.height : ℤ) - 1
        then convWeightedSum img (getKernel kernel) x y
        else img.pix x y := by
  simp only [convolution, if_neg hk]
  rw [writeAll_eq]
  by_cases hmem : 1 ≤ x ∧ x < (img.width : ℤ) - 1 ∧ 1 ≤ y ∧ y < (img.height : ℤ) - 1
  · rw [if_pos ((mem_interior img.width img.height x y).2 hmem), if_pos hmem]
  · rw [if_neg (fun h => hmem ((mem_interior img.width img.height x y).1 h)),
      if_neg hmem]

/-- Witness for C2: identity kernel on a concrete image at an interior
pixel. -/
theorem convolution_spec_witness :
    (convolution (Image.black 3 3) Kernel.Identity).pix 1 1
      = if 1 ≤ (1 : ℤ) ∧ (1 : ℤ) < ((Image.black 3 3).width : ℤ) - 1
            ∧ 1 ≤ (1 : ℤ) ∧ (1 : ℤ) < ((Image.black 3 3).height : ℤ) - 1
        then convWeightedSum (Image.black 3 3) (getKernel Kernel.Identity) 1 1
        else (Image.black 3 3).pix 1 1 :=
  convolution_spec (Image.black 3 3) Kernel.Identity (by decide) 1 1

/-! ## Mosaic (`mosaic`, main.cpp:361-376) -/

/-- `mosaic(img, copies)`: allocates a fresh `width*5 × height*5` black
image and writes `img.pixel(x % width, y % height)` at every coordinate;
the `copies` parameter is declared but never read. -/
def mosaic (img : Image) (copies : ℤ) : Image :=
  ⟨5 * img.width, 5 * img.height,
    writeAll (Image.black (5 * img.width) (5 * img.height)).pix
      (loopCoords 0 (5 * img.width) 0 (5 * img.height))
      (fun c => img.pix (c.1 % (img.width : ℤ)) (c.2 % (img.height : ℤ)))⟩

/-- C9: for every image and every value of `copies`, `mosaic` produces a
`5·width × 5·height` image whose pixel `(x, y)` is the source pixel
`(x mod width, y mod height)`; the output does not depend on `copies`,
which is never read. -/
theorem mosaic_spec (img : Image) (copies copies2 : ℤ) (x y : ℤ)
    (hx : 0 ≤ x ∧ x < 5 * (img.width : ℤ))
    (hy : 0 ≤ y ∧ y < 5 * (img.height : ℤ)) :
    (mosaic img copies).width = 5 * img.width
      ∧ (mosaic img copies).height = 5 * img.height
      ∧ (mosaic img copies).pix x y
          = img.pix (x % (img.width : ℤ)) (y % (img.height : ℤ))
      ∧ mosaic img copies = mosaic img copies2 := by
  refine ⟨rfl, rfl, ?_, rfl⟩
  show writeAll _ _ _ x y = _
  rw [writeAll_eq]
  rw [if_pos ((mem_loopCoords 0 (5 * img.width) 0 (5 * img.height) x y).2 (by push_cast; omega))]

/-- Witness for C9 at a concrete image, copies values and pixel. -/
theorem mosaic_spec_witness :
    (mosaic (Image.black 2 2) 5).width = 5 * (Image.black 2 2).width
      ∧ (mosaic (Image.black 2 2) 5).height = 5 * (Image.black 2 2).height
      ∧ (mosaic (Image.black 2 2) 5).pix 7 3
          = (Image.black 2 2).pix (7 % ((Image.black 2 2).width : ℤ))
              (3 % ((Image.black 2 2).height : ℤ))
      ∧ mosaic (Image.black 2 2) 5 = mosaic (Image.black 2 2) 7 :=
  mosaic_spec (Image.black 2 2) 5 7 7 3 (by decide) (by decide)

/-! ## Difference of Gaussians (`gaussienne_difference`, main.cpp:657-675) -/

/-- `gaussienne_difference(img)`: blur two copies with kernel sizes `1`
and `3`, then per channel write
`clamp(c1 - c2 > 0.03 ? 1 : c1 - c2, 0, 1)`.  The loop writes the live
buffer but reads only the two blurred copies, so the per-pixel
functional form is exact. -/
def gaussienne_difference (img : Image) : Image :=
  ⟨img.width, img.height, fun x y =>
    Vec3.mk
      (clampQ (if ((blur_convolution img 1).pix x y).r - ((blur_convolution img 3).pix x y).r > 0.03
               then 1
               else ((blur_convolution img 1).pix x y).r - ((blur_convolution img 3).pix x y).r) 0 1)
      (clampQ (if ((blur_convolution img 1).pix x y).g - ((blur_convolution img 3).pix x y).g > 0.03
               then 1
               else ((blur_convolution img 1).pix x y).g - ((blur_convolution img 3).pix x y).g) 0 1)
      (clampQ (if ((blur_convolution img 1).pix x y).b - ((blur_convolution img 3).pix x y).b > 0.03
               then 1
               else ((blur_convolution img 1).pix x y).b - ((blur_convolution img 3).pix x y).b) 0 1)⟩

/-- The per-channel rule as the spec words it: `clamp(diff, 0, 1)`,
except that a raw difference above the threshold `0.03` is snapped to
exactly `1`. -/
def dogSpecChannel (small large : ℚ) : ℚ :=
  if small - large > 0.03 then 1 else min 1 (max 0 (small - large))

theorem clampQ_zero_one (d : ℚ) : clampQ d 0 1 = min 1 (max 0 d) := by
  simp only [clampQ, min_def, max_def]
  split_ifs <;> linarith

/-- C3: the difference-of-Gaussians filter computes two independently
box-blurred copies of the source at two different kernel sizes (`1` and
`3`), and each output channel is `clamp(blur_small - blur_large, 0, 1)`
except that a raw difference exceeding `0.03` is snapped to exactly
`1`. -/
theorem gaussienne_difference_spec (img : Image) (x y : ℤ) :
    (gaussienne_difference img).pix x y
      = Vec3.mk
          (dogSpecChannel ((blur_convolution img 1).pix x y).r
            ((blur_convolution img 3).pix x y).r)
          (dogSpecChannel ((blur_convolution img 1).pix x y).g
            ((blur_convolution img 3).pix x y).g)
          (dogSpecChannel ((blur_convolution img 1).pix x y).b
            ((blur_convolution img 3).pix x y).b) := by
  simp only [gaussienne_difference, dogSpecChannel]
  apply Vec3.ext_ch <;>
    simp only [Vec3.r_mk, Vec3.g_mk, Vec3.b_mk] <;>
    split_ifs with h <;>
    rw [clampQ_zero_one] <;>
    simp

/-! ## Differential encoding (`pixel_to_diff`, main.cpp:870-889) -/

/-- `pixel_to_diff`: over the flat pixel list, element `0` is the first
pixel and element `x > 0` is `pixels[x] - pixels[x-1]`. -/
def pixel_to_diff (ps : List Vec3) : List Vec3 :=
  (List.range ps.length).map fun x =>
    if x = 0 then ps.getD 0 0 else ps.getD x 0 - ps.getD (x - 1) 0

theorem pixel_to_diff_getD (ps : List Vec3) (i : ℕ) (hi : i < ps.length) :
    (pixel_to_diff ps).getD i 0
      = if i = 0 then ps.getD 0 0 else ps.getD i 0 - ps.getD (i - 1) 0 := by
  unfold pixel_to_diff
  rw [List.getD_eq_getElem?_getD, List.getElem?_map]
  simp [List.getElem?_range hi]

/-- C10: the differential encoding is losslessly invertible by prefix
summation: its output has the same length as the input, first element
equal to the first pixel, element `i > 0` equal to
`pixel[i] - pixel[i-1]`, and the running cumulative sum of the output
reconstructs every pixel exactly (over exact arithmetic). -/
theorem pixel_to_diff_prefix_sum (ps : List Vec3) :
    (pixel_to_diff ps).length = ps.length
      ∧ (0 < ps.length → (pixel_to_diff ps).getD 0 0 = ps.getD 0 0)
      ∧ (∀ i : ℕ, 0 < i → i < ps.length →
          (pixel_to_diff ps).getD i 0 = ps.getD i 0 - ps.getD (i - 1) 0)
      ∧ (∀ i : ℕ, i < ps.length →
          ∑ j ∈ Finset.range (i + 1), (pixel_to_diff ps).getD j 0 = ps.getD i 0) := by
  refine ⟨by simp [pixel_to_diff], ?_, ?_, ?_⟩
  · intro h
    rw [pixel_to_diff_getD ps 0 h]
    simp
  · intro i h0 hi
    rw [pixel_to_diff_getD ps i hi, if_neg (by omega)]
  · intro i
    induction i with
    | zero =>
        intro hi
        rw [Finset.sum_range_one, pixel_to_diff_getD ps 0 hi]
        simp
    | succ n ih =>
        intro hi
        rw [Finset.sum_range_succ, ih (by omega),
          pixel_to_diff_getD ps (n + 1) hi, if_neg (by omega)]
        simp

/-- Witness for C10: the cumulative sum at index 1 of a concrete
two-pixel list reconstructs the second pixel. -/
theorem pixel_to_diff_prefix_sum_witness :
    ∑ j ∈ Finset.range 2,
        (pixel_to_diff [Vec3.mk 1 0 0, Vec3.mk 0 1 0]).getD j 0
      = ([Vec3.mk 1 0 0, Vec3.mk 0 1 0].getD 1 0) := by
  have h := (pixel_to_diff_prefix_sum [Vec3.mk 1 0 0, Vec3.mk 0 1 0]).2.2.2 1 (by norm_num)
  simpa using h

/-! ## Mirror (`mirror`, main.cpp:104-126)

The loop iterates `y` over the full height and `x` only over the left
half, swapping `img.pixel(x, y)` with a direction-dependent target.  A
swap of two buffer cells is embedded as `swapPix`; the whole filter is a
fold of swaps in loop order. -/

/-- The mirror direction enum. -/
inductive Mirror
  | Horizontal
  | Vertical
  | Both
deriving DecidableEq

/-- `std::swap(img.pixel(c), img.pixel(d))` on the buffer `p`. -/
def swapPix (p : ℤ → ℤ → Vec3) (c d : ℤ × ℤ) : ℤ → ℤ → Vec3 :=
  fun a b =>
    if (a, b) = c then p d.1 d.2
    else if (a, b) = d then p c.1 c.2
    else p a b

/-- A sequence of in-place swaps, first pair applied first. -/
def swapFold (p : ℤ → ℤ → Vec3) (L : List ((ℤ × ℤ) × (ℤ × ℤ))) : ℤ → ℤ → Vec3 :=
  L.foldl (fun q cd => swapPix q cd.1 cd.2) p

/-- The swap partner of `(x, y)` for each direction. -/
def mirrorTarget (w h : ℕ) (direction : Mirror) (x y : ℕ) : ℤ × ℤ :=
  match direction with
  | .Horizontal => (((w - 1 - x : ℕ) : ℤ), (y : ℤ))
  | .Vertical => ((x : ℤ), ((h - 1 - y : ℕ) : ℤ))
  | .Both => (((w - 1 - x : ℕ) : ℤ), ((h - 1 - y : ℕ) : ℤ))

/-- One iteration of the outer loop: the inner `x` loop over the left
half of row `y`. -/
def mirrorRow (w h : ℕ) (direction : Mirror) (y : ℕ) (p : ℤ → ℤ → Vec3) :
    ℤ → ℤ → Vec3 :=
  swapFold p ((List.range (w / 2)).map fun (x : ℕ) =>
    (((x : ℤ), (y : ℤ)), mirrorTarget w h direction x y))

/-- `mirror(img, direction)`: the full nested swap loop. -/
def mirror (img : Image) (direction : Mirror) : Image :=
  ⟨img.width, img.height,
    (List.range img.height).foldl
      (fun p y => mirrorRow img.width img.height direction y p) img.pix⟩

theorem swapFold_nil (q : ℤ → ℤ → Vec3) : swapFold q [] = q := rfl

theorem swapFold_append (q : ℤ → ℤ → Vec3)
    (L1 L2 : List ((ℤ × ℤ) × (ℤ × ℤ))) :
    swapFold q (L1 ++ L2) = swapFold (swapFold q L1) L2 :=
  List.foldl_append ..

theorem swapFold_cons_pair (q : ℤ → ℤ → Vec3) (c d : ℤ × ℤ)
    (L : List ((ℤ × ℤ) × (ℤ × ℤ))) :
    swapFold q ((c, d) :: L) = swapFold (swapPix q c d) L := rfl

theorem swapPix_eval (p : ℤ → ℤ → Vec3) (c1 c2 d1 d2 a b : ℤ) :
    swapPix p (c1, c2) (d1, d2) a b
      = if (a, b) = (c1, c2) then p d1 d2
        else if (a, b) = (d1, d2) then p c1 c2
        else p a b := rfl

theorem swapFold_congr (L : List ((ℤ × ℤ) × (ℤ × ℤ))) {F G : ℤ → ℤ → Vec3}
    (hFG : ∀ a b, F a b = G a b) (a b : ℤ) :
    swapFold F L a b = swapFold G L a b := by
  induction L generalizing F G with
  | nil => exact hFG a b
  | cons cd L ih =>
      obtain ⟨c, d⟩ := cd
      rw [swapFold_cons_pair, swapFold_cons_pair]
      refine ih ?_
      intro a' b'
      unfold swapPix
      split_ifs <;> apply hFG

/-- Evaluating the inner loop of a `Vertical` row: cells of the left
half of rows `yi` and `y2` trade places, everything else is untouched. -/
theorem swapFold_column (m : ℕ) (yi y2 : ℤ) (p : ℤ → ℤ → Vec3) (a b : ℤ) :
    swapFold p ((List.range m).map fun (x : ℕ) => (((x : ℤ), yi), ((x : ℤ), y2))) a b
      = if 0 ≤ a ∧ a < (m : ℤ) ∧ b = yi then p a y2
        else if 0 ≤ a ∧ a < (m : ℤ) ∧ b = y2 then p a yi
        else p a b := by
  induction m generalizing p a b with
  | zero =>
      simp only [List.range_zero, List.map_nil, swapFold_nil]
      rw [if_neg (by omega), if_neg (by omega)]
  | succ m ih =>
      rw [List.range_succ, List.map_append, List.map_cons, List.map_nil,
        swapFold_append, swapFold_cons_pair, swapFold_nil, swapPix_eval]
      simp only [ih, Prod.mk.injEq]
      split_ifs <;>
        first
          | rfl
          | (exfalso; omega)
          | (congr 2 <;> omega)

/-- A `Vertical` row operation in closed form. -/
theorem mirrorRowV_eval (w h y : ℕ) (p : ℤ → ℤ → Vec3) (a b : ℤ) :
    mirrorRow w h Mirror.Vertical y p a b
      = if 0 ≤ a ∧ a < ((w / 2 : ℕ) : ℤ) ∧ b = (y : ℤ)
        then p a ((h - 1 - y : ℕ) : ℤ)
        else if 0 ≤ a ∧ a < ((w / 2 : ℕ) : ℤ) ∧ b = ((h - 1 - y : ℕ) : ℤ)
        then p a (y : ℤ)
        else p a b := by
  simp only [mirrorRow, mirrorTarget]
  exact swapFold_column (w / 2) (y : ℤ) ((h - 1 - y : ℕ) : ℤ) p a b

/-- Processing row `h - 1 - y` undoes the swaps of row `y`: the swap of
each left-half cell pair is performed twice and cancels.  (When
`y = h - 1 - y`, the middle row, each pass is itself the identity.) -/
theorem mirrorRowV_cancel (w h y : ℕ) (hy : y < h) (p : ℤ → ℤ → Vec3)
    (a b : ℤ) :
    mirrorRow w h Mirror.Vertical (h - 1 - y)
        (mirrorRow w h Mirror.Vertical y p) a b = p a b := by
  have hyy : h - 1 - (h - 1 - y) = y := by omega
  rw [mirrorRowV_eval, hyy]
  simp only [mirrorRowV_eval, and_true]
  split_ifs <;>
    first
      | rfl
      | (exfalso; omega)
      | (congr 2 <;> omega)

/-- Folding the vertical row operation over the symmetric row range
`[l, l + n)` with `2l + n = h` is the identity: rows pair up as
`(l, h-1-l)`, `(l+1, h-2-l)`, … and each pair cancels. -/
theorem mirrorV_fold (w h : ℕ) (n : ℕ) :
    ∀ l p a b, 2 * l + n = h →
      ((List.range' l n).foldl
          (fun p y => mirrorRow w h Mirror.Vertical y p) p) a b = p a b := by
  induction n using Nat.strong_induction_on with
  | _ n ih =>
      rcases n with _ | (_ | n)
      · intro l p a b hl
        simp [List.range']
      · intro l p a b hl
        simp only [List.range'_succ, List.range', List.foldl_cons, List.foldl_nil]
        have hll : h - 1 - l = l := by omega
        rw [mirrorRowV_eval, hll]
        split_ifs <;>
          first
            | rfl
            | (exfalso; omega)
            | (congr 2 <;> omega)
      · intro l p a b hl
        have hdec : List.range' l (n + 2) = l :: (List.range' (l + 1) n ++ [l + 1 + 1 * n]) := by
          rw [List.range'_succ, List.range'_concat]
        rw [hdec]
        simp only [List.foldl_cons, List.foldl_append, List.foldl_nil]
        have hmid : ∀ a' b',
            (List.foldl (fun p y => mirrorRow w h Mirror.Vertical y p)
                (mirrorRow w h Mirror.Vertical l p) (List.range' (l + 1) n)) a' b'
              = (mirrorRow w h Mirror.Vertical l p) a' b' :=
          fun a' b' => ih n (by omega) (l + 1) _ a' b' (by omega)
        have hcong : ∀ a' b',
            mirrorRow w h Mirror.Vertical (l + 1 + 1 * n)
                (List.foldl (fun p y => mirrorRow w h Mirror.Vertical y p)
                  (mirrorRow w h Mirror.Vertical l p) (List.range' (l + 1) n)) a' b'
              = mirrorRow w h Mirror.Vertical (l + 1 + 1 * n)
                  (mirrorRow w h Mirror.Vertical l p) a' b' := by
          intro a' b'
          simp only [mirrorRow]
          exact swapFold_congr _ hmid a' b'
        rw [hcong]
        have hln : l + 1 + 1 * n = h - 1 - l := by omega
        rw [hln]
        exact mirrorRowV_cancel w h l (by omega) p a b

/-- C8: `mirror` with direction `Vertical` leaves the image identical to
its input: the loop runs `x` only over the left half while `y` covers
the full height, so each vertical swap in the left half happens twice
(once for `y`, once for `h-1-y`) and cancels, and right-half pixels are
never touched — the `Vertical` mode is the identity transform, not a
vertical flip. -/
theorem mirror_vertical_identity (img : Image) (a b : ℤ) :
    (mirror img Mirror.Vertical).pix a b = img.pix a b := by
  show (List.range img.height).foldl _ img.pix a b = _
  rw [List.range_eq_range']
  exact mirrorV_fold img.width img.height img.height 0 img.pix a b (by omega)

/-! ## Kuwahara filter (`kuwahara`, main.cpp:685-744) -/

/-- Luminance `0.299 R + 0.587 G + 0.114 B`. -/
def lum (c : Vec3) : ℚ := 0.299 * c.r + 0.587 * c.g + 0.114 * c.b

/-- `dx0` of quadrant `q`: `-radius` for the left quadrants (`q = 0, 2`),
`0` for the right ones. -/
def quadX0 (radius : ℤ) (q : ℕ) : ℤ := if q = 0 ∨ q = 2 then -radius else 0

/-- `dy0` of quadrant `q`: `-radius` for the top quadrants (`q = 0, 1`),
`0` for the bottom ones. -/
def quadY0 (radius : ℤ) (q : ℕ) : ℤ := if q = 0 ∨ q = 1 then -radius else 0

/-- Number of samples per quadrant: `(radius + 1)²` (each loop runs from
`d0` to `d0 + radius` inclusive). -/
def quadCount (radius : ℤ) : ℕ := (radius.toNat + 1) * (radius.toNat + 1)

/-- Sum of the quadrant's sampled colors, edge-clamped, read from the
frozen snapshot `img`. -/
def quadSum (img : Image) (radius : ℤ) (x y : ℤ) (q : ℕ) : Vec3 :=
  ∑ j ∈ Finset.range (radius.toNat + 1), ∑ i ∈ Finset.range (radius.toNat + 1),
    img.pix (clampZ (x + quadX0 radius q + i) 0 ((img.width : ℤ) - 1))
            (clampZ (y + quadY0 radius q + j) 0 ((img.height : ℤ) - 1))

/-- The quadrant's mean color. -/
def quadMean (img : Image) (radius : ℤ) (x y : ℤ) (q : ℕ) : Vec3 :=
  (quadSum img radius x y q).divs ((quadCount radius : ℕ) : ℚ)

/-- The quadrant's mean luminance (accumulated separately, as in the
source). -/
def quadMeanL (img : Image) (radius : ℤ) (x y : ℤ) (q : ℕ) : ℚ :=
  (∑ j ∈ Finset.range (radius.toNat + 1), ∑ i ∈ Finset.range (radius.toNat + 1),
    lum (img.pix (clampZ (x + quadX0 radius q + i) 0 ((img.width : ℤ) - 1))
                 (clampZ (y + quadY0 radius q + j) 0 ((img.height : ℤ) - 1))))
    / ((quadCount radius : ℕ) : ℚ)

/-- The quadrant's luminance variance. -/
def quadVar (img : Image) (radius : ℤ) (x y : ℤ) (q : ℕ) : ℚ :=
  (∑ j ∈ Finset.range (radius.toNat + 1), ∑ i ∈ Finset.range (radius.toNat + 1),
    (lum (img.pix (clampZ (x + quadX0 radius q + i) 0 ((img.width : ℤ) - 1))
                  (clampZ (y + quadY0 radius q + j) 0 ((img.height : ℤ) - 1)))
        - quadMeanL img radius x y q)
      * (lum (img.pix (clampZ (x + quadX0 radius q + i) 0 ((img.width : ℤ) - 1))
                      (clampZ (y + quadY0 radius q + j) 0 ((img.height : ℤ) - 1)))
          - quadMeanL img radius x y q))
    / ((quadCount radius : ℕ) : ℚ)

/-- The `bestMean` / `bestVar` accumulation over the four quadrants;
`none` stands for the initial `infinity`, and only a strictly smaller
variance replaces the current best. -/
def kuwaharaStep (acc : Vec3 × Option ℚ) (mv : Vec3 × ℚ) : Vec3 × Option ℚ :=
  match acc.2 with
  | none => (mv.1, some mv.2)
  | some bv => if mv.2 < bv then (mv.1, some mv.2) else acc

theorem kuwaharaStep_none (m : Vec3) (mv : Vec3 × ℚ) :
    kuwaharaStep (m, none) mv = (mv.1, some mv.2) := rfl

theorem kuwaharaStep_some (m : Vec3) (bv : ℚ) (mv : Vec3 × ℚ) :
    kuwaharaStep (m, some bv) mv
      = if mv.2 < bv then (mv.1, some mv.2) else (m, some bv) := rfl

/-- The fold over the quadrant list. -/
def kuwaharaSelect (l : List (Vec3 × ℚ)) : Vec3 × Option ℚ :=
  l.foldl kuwaharaStep ((0 : Vec3), none)

/-- The value written at one pixel by `kuwahara`. -/
def kuwaharaPix (img : Image) (radius : ℤ) (x y : ℤ) : Vec3 :=
  (kuwaharaSelect ([0, 1, 2, 3].map fun q =>
    (quadMean img radius x y q, quadVar img radius x y q))).1

/-- `kuwahara(img, radius)`: early return for `radius <= 0`; otherwise
every pixel is replaced by the accumulated best quadrant mean, reading
from the snapshot. -/
def kuwahara (img : Image) (radius : ℤ) : Image :=
  if radius ≤ 0 then img
  else ⟨img.width, img.height, fun x y => kuwaharaPix img radius x y⟩

/-- C4: for every image and every radius `> 0`, the Kuwahara filter
replaces each pixel with the mean color of one of the four overlapping
`(radius+1)×(radius+1)` quadrants anchored at the pixel (edge-clamped,
read from the frozen source snapshot): namely one whose luminance
variance is minimal among all four, and which is strictly below every
earlier quadrant's variance — i.e. ties resolve to the earlier quadrant
in the enumeration order top-left, top-right, bottom-left,
bottom-right. -/
theorem kuwahara_lowest_variance (img : Image) (radius : ℤ) (hr : 0 < radius)
    (x y : ℤ) :
    ∃ q : ℕ, q < 4
      ∧ (kuwahara img radius).pix x y = quadMean img radius x y q
      ∧ (∀ p : ℕ, p < 4 → quadVar img radius x y q ≤ quadVar img radius x y p)
      ∧ (∀ p : ℕ, p < q → quadVar img radius x y q < quadVar img radius x y p) := by
  have hsel : (kuwahara img radius).pix x y = kuwaharaPix img radius x y := by
    simp only [kuwahara, if_neg (by omega : ¬ radius ≤ 0)]
  rw [hsel]
  set v0 := quadVar img radius x y 0 with hv0
  set v1 := quadVar img radius x y 1 with hv1
  set v2 := quadVar img radius x y 2 with hv2
  set v3 := quadVar img radius x y 3 with hv3
  simp only [kuwaharaPix, kuwaharaSelect, List.map_cons, List.map_nil,
    List.foldl_cons, List.foldl_nil, kuwaharaStep_none, kuwaharaStep_some]
  by_cases h1 : v1 < v0
  · rw [if_pos h1]
    simp only [kuwaharaStep_some]
    by_cases h2 : v2 < v1
    · rw [if_pos h2]
      simp only [kuwaharaStep_some]
      by_cases h3 : v3 < v2
      · rw [if_pos h3]
        refine ⟨3, by omega, rfl, ?_, ?_⟩
        · intro p hp
          interval_cases p <;> linarith
        · intro p hp
          interval_cases p <;> linarith
      · rw [if_neg h3]
        have h3' := not_lt.mp h3
        refine ⟨2, by omega, rfl, ?_, ?_⟩
        · intro p hp
          interval_cases p <;> linarith
        · intro p hp
          interval_cases p <;> linarith
    · rw [if_neg h2]
      have h2' := not_lt.mp h2
      simp only [kuwaharaStep_some]
      by_cases h3 : v3 < v1
      · rw [if_pos h3]
        refine ⟨3, by omega, rfl, ?_, ?_⟩
        · intro p hp
          interval_cases p <;> linarith
        · intro p hp
          interval_cases p <;> linarith
      · rw [if_neg h3]
        have h3' := not_lt.mp h3
        refine ⟨1, by omega, rfl, ?_, ?_⟩
        · intro p hp
          interval_cases p <;> linarith
        · intro p hp
          interval_cases p <;> linarith
  · rw [if_neg h1]
    have h1' := not_lt.mp h1
    simp only [kuwaharaStep_some]
    by_cases h2 : v2 < v0
    · rw [if_pos h2]
      simp only [kuwaharaStep_some]
      by_cases h3 : v3 < v2
      · rw [if_pos h3]
        refine ⟨3, by omega, rfl, ?_, ?_⟩
        · intro p hp
          interval_cases p <;> linarith
        · intro p hp
          interval_cases p <;> linarith
      · rw [if_neg h3]
        have h3' := not_lt.mp h3
        refine ⟨2, by omega, rfl, ?_, ?_⟩
        · intro p hp
          interval_cases p <;> linarith
        · intro p hp
          interval_cases p <;> linarith
    · rw [if_neg h2]
      have h2' := not_lt.mp h2
      simp only [kuwaharaStep_some]
      by_cases h3 : v3 < v0
      · rw [if_pos h3]
        refine ⟨3, by omega, rfl, ?_, ?_⟩
        · intro p hp
          interval_cases p <;> linarith
        · intro p hp
          interval_cases p <;> linarith
      · rw [if_neg h3]
        have h3' := not_lt.mp h3
        refine ⟨0, by omega, rfl, ?_, ?_⟩
        · intro p hp
          interval_cases p <;> linarith
        · intro p hp
          omega

/-- Witness for C4 at a concrete image, radius and pixel. -/
theorem kuwahara_lowest_variance_witness :
    ∃ q : ℕ, q < 4
      ∧ (kuwahara (Image.black 1 1) 1).pix 0 0 = quadMean (Image.black 1 1) 1 0 0 q
      ∧ (∀ p : ℕ, p < 4 →
          quadVar (Image.black 1 1) 1 0 0 q ≤ quadVar (Image.black 1 1) 1 0 0 p)
      ∧ (∀ p : ℕ, p < q →
          quadVar (Image.black 1 1) 1 0 0 q < quadVar (Image.black 1 1) 1 0 0 p) :=
  kuwahara_lowest_variance (Image.black 1 1) 1 (by norm_num) 0 0

/-! ## CSV writer (`save_differential_data_in_csv`, main.cpp:897-916)

File IO is embedded by value: whether `std::ofstream` opened
successfully is a boolean input, the produced file is an optional list
of lines, and the diagnostic stream (`std::cerr`) is a list of lines.
(The success-path `std::cout` notice is not part of the claim and is not
modelled.)  `std::fixed << std::setprecision(6)` float formatting is
modelled on exact rationals: the magnitude is rounded to the nearest
multiple of `10⁻⁶` and printed with exactly six fractional digits. -/

/-- The six fractional digits of `m < 10⁶`, zero-padded. -/
def digits6 (m : ℕ) : String :=
  String.mk ((List.range 6).map fun i => Nat.digitChar (m / 10 ^ (5 - i) % 10))

/-- Fixed-point rendering with six decimal digits. -/
def fmt6 (q : ℚ) : String :=
  (if q < 0 then "-" else "")
    ++ toString ((round (|q| * 1000000) : ℤ).toNat / 1000000)
    ++ "."
    ++ digits6 ((round (|q| * 1000000) : ℤ).toNat % 1000000)

/-- One data row: `r,g,b`. -/
def csvLine (c : Vec3) : String := fmt6 c.r ++ "," ++ fmt6 c.g ++ "," ++ fmt6 c.b

/-- `save_differential_data_in_csv(data, filename)`: on open failure
report to the diagnostic stream and write nothing; otherwise write the
header `R,G,B` then one row per element. -/
def save_differential_data_in_csv (openOk : Bool) (data : List Vec3)
    (filename : String) : Option (List String) × List String :=
  if !openOk then
    (none, ["Erreur : impossible d ouvrir le fichier " ++ filename])
  else
    (some ("R,G,B" :: data.map csvLine), [])

/-- C7: if opening the output file fails, the CSV writer reports to the
diagnostic stream and produces no file content; if opening succeeds, it
writes the header row `R,G,B` followed by exactly one line per input
element, each line holding the element's raw (possibly negative) R, G, B
values rendered with six decimal digits after the point. -/
theorem save_csv_spec (data : List Vec3) (filename : String) :
    ((save_differential_data_in_csv false data filename).1 = none
      ∧ (save_differential_data_in_csv false data filename).2 ≠ [])
    ∧ (save_differential_data_in_csv true data filename).1
        = some ("R,G,B" :: data.map csvLine)
    ∧ ((save_differential_data_in_csv true data filename).1.getD []).length
        = data.length + 1
    ∧ (∀ c : Vec3, csvLine c = fmt6 c.r ++ "," ++ fmt6 c.g ++ "," ++ fmt6 c.b)
    ∧ (∀ q : ℚ, ∃ s t : String, fmt6 q = s ++ "." ++ t ∧ t.length = 6
        ∧ (q < 0 → ∃ u : String, s = "-" ++ u)) := by
  refine ⟨⟨rfl, by simp [save_differential_data_in_csv]⟩, rfl,
    by simp [save_differential_data_in_csv], fun c => rfl, ?_⟩
  intro q
  refine ⟨(if q < 0 then "-" else "")
      ++ toString ((round (|q| * 1000000) : ℤ).toNat / 1000000),
    digits6 ((round (|q| * 1000000) : ℤ).toNat % 1000000), rfl, ?_, ?_⟩
  · simp [digits6]
  · intro hq
    exact ⟨toString ((round (|q| * 1000000) : ℤ).toNat / 1000000), by rw [if_pos hq]⟩

/-- Witness for C7: concrete failed-open run produces no file. -/
theorem save_csv_spec_witness :
    (save_differential_data_in_csv false [] "differential.csv").1 = none :=
  (save_csv_spec [] "differential.csv").1.1

/-- The 4×4 test image of the spec: all black except one white pixel at
`(1, 1)`. -/
def imgDot4 : Image :=
  ⟨4, 4, fun x y => if x = 1 ∧ y = 1 then Vec3.mk 1 1 1 else 0⟩

/-- C6: blurring the 4×4 image that is black except for one white pixel
at `(1,1)` with kernel size `3` gives, at pixel `(0,0)`, exactly one
ninth of full intensity in each channel (the clamped 3×3 window around
`(0,0)` samples the white pixel once among nine). -/
theorem blur_dot4_corner :
    (blur_convolution imgDot4 3).pix 0 0 = Vec3.mk (1/9) (1/9) (1/9) := by
  rw [blur_pix_window imgDot4 3 (by norm_num) 0 0 le_rfl le_rfl]
  apply Vec3.ext_ch <;>
    simp +decide [Vec3.divs, Vec3.r_sum, Vec3.g_sum, Vec3.b_sum,
      Finset.sum_range_succ, imgDot4,
      apply_ite Vec3.r, apply_ite Vec3.g, apply_ite Vec3.b] <;>
    norm_num

end ImgProc
